import Mathlib

/-
Shallow embedding of the vu-meter program (src/src/main.rs) and verification
of its specification claims.

Modelling conventions:
- f32 sample and level values are modelled as rationals; the claims under
  verification concern comparisons, max and exact linear interpolation, where
  f32 rounding plays no role for the inputs considered.  Where NaN matters
  (the process callback), samples are modelled by an explicit Sample type
  with a NaN constructor.
- The Rust cast (as i16) truncates toward zero and is modelled by ratTrunc.
- Rust i32 division truncates toward zero and is modelled by Int.tdiv.
- Fallible code paths (Rust panics) are modelled by Option, none meaning a
  panic.
-/

namespace VuMeter

/-- Control result returned by the jack process callback; the source returns
Control::Continue in its normal path. -/
inductive Control where
  | Continue
  | Quit
  deriving DecidableEq

/-- An f32 sample as seen by the process callback: either NaN or an ordinary
value (modelled as a rational). -/
inductive Sample where
  | nan
  | val (q : ℚ)
  deriving DecidableEq

/-- Rust f32 abs applied to a sample; abs of NaN is NaN. -/
def sAbs : Sample → Sample
  | .nan => .nan
  | .val q => .val |q|

/-- Rust partial comparison on f32 values: defined unless an operand is
NaN. -/
def pcmp : Sample → Sample → Option Ordering
  | .val a, .val b => some (compare a b)
  | _, _ => none

/-- The iterator fold in the source reduction (src/src/main.rs line 292):
map abs over the block, then reduce keeping the running maximum, where each
comparison unwraps the partial comparison.  Returns none where the Rust
code panics: on an empty block, or when a comparison involves NaN. -/
def maxByAbs (l : List Sample) : Option Sample :=
  match l.map sAbs with
  | [] => none
  | x :: xs => go x xs
where go : Sample → List Sample → Option Sample
  | acc, [] => some acc
  | acc, y :: ys =>
    match pcmp acc y with
    | none => none
    | some Ordering.gt => go acc ys
    | some _ => go y ys

/-- Rust f32 max of a stored (non-NaN) level with the computed block maximum;
f32 max returns the other operand when one operand is NaN. -/
def fmax (a : ℚ) : Sample → ℚ
  | .nan => a
  | .val q => max a q

/-- The per-port loop of ProcessHandlerContext::process (src/src/main.rs
lines 291-294) over per-channel sample blocks, starting at channel index i:
for each block, compute the maximum absolute value and fold it into the vu
vector at that index.  Returns none where the Rust code panics (reduction
failure, or an out-of-range index). -/
def processChans (i : Nat) (blocks : List (List Sample)) (st : List ℚ) :
    Option (List ℚ) :=
  match blocks with
  | [] => some st
  | b :: bs =>
    match st[i]?, maxByAbs b with
    | some cur, some m => processChans (i + 1) bs (st.set i (fmax cur m))
    | _, _ => none

/-- ProcessHandlerContext::process (src/src/main.rs lines 289-296): runs the
per-port loop and returns Control::Continue; none models a panic. -/
def process (blocks : List (List Sample)) (st : List ℚ) :
    Option (List ℚ × Control) :=
  (processChans 0 blocks st).map (fun v => (v, Control.Continue))

/-- The vu update for one channel performed inside the process callback:
vu[i] = max(vu[i], p), all other entries unchanged.  Stored levels and block
peaks are non-NaN here, so they are plain rationals. -/
def levelUpdate (st : List ℚ) (i : Nat) (p : ℚ) : List ℚ :=
  st.set i (max (st.getD i 0) p)

/-- A sequence of update calls (channel index, block peak), applied in
order. -/
def applyUpdates (us : List (Nat × ℚ)) (st : List ℚ) : List ℚ :=
  us.foldl (fun s u => levelUpdate s u.1 u.2) st

/-- The consumer-side snapshot in the EXPOSE branch (src/src/main.rs lines
127-132): under the lock, clone the vector and zero every entry in place.
Returns (snapshot, new internal state). -/
def takeAndReset (st : List ℚ) : List ℚ × List ℚ :=
  (st, st.map (fun _ => 0))

/-- The block peaks reported for channel i within an update sequence, in
order. -/
def chPeaks (us : List (Nat × ℚ)) (i : Nat) : List ℚ :=
  us.filterMap (fun u => if u.1 = i then some u.2 else none)

/-- Function interp_i of src/src/main.rs lines 234-242: integer linear
interpolation in i32 arithmetic, with truncating division; pos and max_pos
are usize values as in the source. -/
def interp_i (a b : Int) (pos max_pos : Nat) : Int :=
  Int.tdiv (a * ((max_pos - pos : Nat) : Int) + b * (pos : Int)) (max_pos : Int)

/-- Function interp_f of src/src/main.rs lines 244-248: a*(1-pos) + b*pos in
floating point, modelled exactly over the rationals. -/
def interp_f (a b : Int) (pos : ℚ) : ℚ :=
  (a : ℚ) * (1 - pos) + (b : ℚ) * pos

/-- The Rust float-to-integer cast (as i16): truncation toward zero. -/
def ratTrunc (q : ℚ) : Int :=
  Int.tdiv q.num (q.den : Int)

/-- The five-point y-ladder of the bar chart (src/src/main.rs lines 154-165)
for the vertical pixel range y0..y1 (inclusive) and a normalized level. -/
def yLadder (y0 y1 : Int) (level : ℚ) : List Int :=
  let yp := ratTrunc (interp_f (y1 + 1) y0 level)
  if level < 7/10 then
    [y0, yp, yp, yp, y1 + 1]
  else
    let ym1 := ratTrunc (interp_f (y1 + 1) y0 (7/10))
    if level < 9/10 then
      [y0, yp, yp, ym1, y1 + 1]
    else
      let ym2 := ratTrunc (interp_f (y1 + 1) y0 (9/10))
      [y0, yp, ym2, ym1, y1 + 1]

/-- The per-channel bar locations computed in the EXPOSE branch
(src/src/main.rs lines 149-168): x-slot boundaries by integer interpolation
over the channel index, together with the y-ladder for the level. -/
def barLocations (ch : List ℚ) (winW winH : Nat) : List (Int × Int × List Int) :=
  ch.enum.map (fun p =>
    let x0 := interp_i 0 ((winW : Int) - 1) p.1 ch.length
    let x1 := interp_i 0 ((winW : Int) - 1) (p.1 + 1) ch.length
    (x0, x1, yLadder 0 ((winH : Int) - 1) p.2))

/-- A draw rectangle (x, y, width, height), as passed to the renderer. -/
structure Rectangle where
  x : Int
  y : Int
  w : Int
  h : Int
  deriving DecidableEq

/-- Function rect of src/src/main.rs lines 226-232: some rectangle when
x1 >= x0 and y1 >= y0, none otherwise. -/
def rect (x0 x1 y0 y1 : Int) : Option Rectangle :=
  if x1 ≥ x0 ∧ y1 ≥ y0 then some ⟨x0, y0, x1 - x0 + 1, y1 - y0 + 1⟩ else none

/-- The four color bands of a bar, in the emission order of the source. -/
inductive Band where
  | bg
  | high
  | med
  | low
  deriving DecidableEq

/-- The index of the ladder pair a band paints: band k spans from ladder
entry k to ladder entry k+1 minus one. -/
def bandIdx : Band → Nat
  | .bg => 0
  | .high => 1
  | .med => 2
  | .low => 3

/-- The rectangles of one color band over all channels in order
(src/src/main.rs lines 171-174): flat_map of rect over the locations, using
the ladder pair (y k, y (k+1) - 1). -/
def bandRects (locs : List (Int × Int × List Int)) (k : Nat) : List Rectangle :=
  locs.filterMap (fun l => rect l.1 l.2.1 (l.2.2.getD k 0) (l.2.2.getD (k + 1) 0 - 1))

/-- The sequence of fill-rectangle draw calls issued per frame
(src/src/main.rs lines 170-178): one batch per band in the fixed order
background, high, med, low; a batch is issued only when nonempty. -/
def frameDrawCalls (locs : List (Int × Int × List Int)) :
    List (Band × List Rectangle) :=
  [(Band.bg, bandRects locs 0), (Band.high, bandRects locs 1),
    (Band.med, bandRects locs 2), (Band.low, bandRects locs 3)].filter
    (fun p => !p.2.isEmpty)

/-- Modelled from the spec: the FrameDiffCache component (spec section 4.3)
is absent from src/src/main.rs, whose EXPOSE branch always recomputes and
redraws; the cache remembers the last drawn level vector and the last drawn
rectangle set. -/
structure FrameDiffCache where
  cachedLevels : List ℚ
  cachedCalls : List (Band × List Rectangle)
  deriving DecidableEq

/-- Modelled from the spec: should_draw returns true for a genuine
(non-synthetic) trigger; for a synthetic trigger it returns false exactly
when the new levels equal the cached levels and the recomputed rectangle set
is identical to the cached one. -/
def shouldDraw (c : FrameDiffCache) (newLevels : List ℚ)
    (calls : List (Band × List Rectangle)) (synthetic : Bool) : Bool :=
  if synthetic then
    !(decide (newLevels = c.cachedLevels) && decide (calls = c.cachedCalls))
  else
    true

/-- Modelled from the spec: one redraw trigger processed against the cache.
On draw, the cache is updated to the new levels and rectangle set; on skip it
is unchanged.  Returns (whether the frame is drawn, updated cache). -/
def diffStep (c : FrameDiffCache) (newLevels : List ℚ) (winW winH : Nat)
    (synthetic : Bool) : Bool × FrameDiffCache :=
  let calls := frameDrawCalls (barLocations newLevels winW winH)
  if shouldDraw c newLevels calls synthetic then
    (true, ⟨newLevels, calls⟩)
  else
    (false, c)

/-! Helper lemmas about list update and retrieval. -/

theorem getD_set_same {α : Type} (l : List α) (i : Nat) (a d : α)
    (h : i < l.length) : (l.set i a).getD i d = a := by
  induction l generalizing i with
  | nil => simp at h
  | cons x xs ih =>
    cases i with
    | zero => rfl
    | succ n => exact ih n (by simpa using h)

theorem getD_set_other {α : Type} (l : List α) (a d : α) {i j : Nat}
    (h : i ≠ j) : (l.set i a).getD j d = l.getD j d := by
  induction l generalizing i j with
  | nil => simp
  | cons x xs ih =>
    cases i with
    | zero =>
      cases j with
      | zero => exact absurd rfl h
      | succ m => rfl
    | succ n =>
      cases j with
      | zero => rfl
      | succ m => exact ih (fun hnm => h (by omega))

theorem getD_of_length_le {α : Type} (l : List α) (i : Nat) (d : α)
    (h : l.length ≤ i) : l.getD i d = d := by
  induction l generalizing i with
  | nil => cases i <;> rfl
  | cons x xs ih =>
    cases i with
    | zero => simp at h
    | succ n => exact ih n (by simpa using h)

/-- C6 counterexample: with truncating integer division, the implemented form
of interp_i differs from the claimed form a + (b-a)*pos/max_pos at
a = 5, b = 4, pos = 3, max_pos = 10 (the code gives 4, the claimed form 5). -/
theorem interp_i_spec_form_fails :
    interp_i 5 4 3 10 = 4 ∧ 5 + Int.tdiv ((4 - 5) * 3) 10 = 5 ∧
    interp_i 5 4 3 10 ≠ 5 + Int.tdiv ((4 - 5) * 3) 10 := by
  refine ⟨by decide, by decide, by decide⟩

/-- C6 (amended): for 0 ≤ a ≤ b (as at every call site, where a = 0 and
b = width - 1), 0 ≤ pos ≤ max_pos and 0 < max_pos, the implemented form
(a*(max_pos-pos) + b*pos) / max_pos equals a + (b-a)*pos/max_pos under
truncating integer division. -/
theorem interp_i_eq_spec_form (a b : Int) (pos max_pos : Nat)
    (ha : 0 ≤ a) (hab : a ≤ b) (hpos : pos ≤ max_pos) (hmax : 0 < max_pos) :
    interp_i a b pos max_pos = a + Int.tdiv ((b - a) * (pos : Int)) (max_pos : Int) := by
  unfold interp_i
  have h1 : ((max_pos - pos : Nat) : Int) = (max_pos : Int) - (pos : Int) := by
    omega
  rw [h1]
  have hm : (0 : Int) < (max_pos : Int) := by exact_mod_cast hmax
  have hp : (0 : Int) ≤ (pos : Int) := Int.ofNat_nonneg pos
  have hnum : a * ((max_pos : Int) - (pos : Int)) + b * (pos : Int)
      = (b - a) * (pos : Int) + a * (max_pos : Int) := by ring
  rw [hnum]
  have hx : 0 ≤ (b - a) * (pos : Int) := mul_nonneg (by omega) hp
  have hy : 0 ≤ (b - a) * (pos : Int) + a * (max_pos : Int) :=
    add_nonneg hx (mul_nonneg ha (le_of_lt hm))
  rw [Int.tdiv_eq_ediv hy (le_of_lt hm), Int.tdiv_eq_ediv hx (le_of_lt hm),
    Int.add_mul_ediv_right _ _ (by omega : (max_pos : Int) ≠ 0)]
  ring

/-- C6 witness: the amended identity evaluated at the program call shape
a = 0, b = 99, pos = 1, max_pos = 2. -/
theorem interp_i_eq_spec_form_witness :
    interp_i 0 99 1 2 = 0 + Int.tdiv ((99 - 0) * 1) 2 :=
  interp_i_eq_spec_form 0 99 1 2 (by decide) (by decide) (by decide) (by decide)

/-- C5 counterexample: in the 100 by 200 window with levels [0.5, 0.95], the
channel 1 x-slot starts at 49, not at 50 as claimed: interp_i(0,99,1,2) = 49. -/
theorem scenario1_slot_start_is_49 :
    ((barLocations [1/2, 19/20] 100 200).getD 1 (0, 0, [])).1 = 49 ∧
    ((barLocations [1/2, 19/20] 100 200).getD 1 (0, 0, [])).1 ≠ 50 := by
  refine ⟨by decide, by decide⟩

/-- C5 (amended): with channel count 2 and levels [0.5, 0.95] in a 100 by 200
window, channel 0 has x-slot [0,49] with only background and low bands (the
high and med ladder pairs are empty), and channel 1 has x-slot [49,99] split
into high, med and low bands per the level-at-least-0.9 ladder; the emitted
draw calls are exactly these rectangles, grouped by band. -/
theorem scenario1_geometry :
    barLocations [1/2, 19/20] 100 200 =
      [(0, 49, [0, 100, 100, 100, 200]), (49, 99, [0, 10, 20, 60, 200])] ∧
    frameDrawCalls (barLocations [1/2, 19/20] 100 200) =
      [(Band.bg, [⟨0, 0, 50, 100⟩, ⟨49, 0, 51, 10⟩]),
        (Band.high, [⟨49, 10, 51, 10⟩]),
        (Band.med, [⟨49, 20, 51, 40⟩]),
        (Band.low, [⟨0, 100, 50, 100⟩, ⟨49, 60, 51, 140⟩])] := by
  have l1 : yLadder 0 199 (1/2) = [0, 100, 100, 100, 200] := by
    norm_num [yLadder, interp_f, ratTrunc]
  have l2 : yLadder 0 199 (19/20) = [0, 10, 20, 60, 200] := by
    norm_num [yLadder, interp_f, ratTrunc]
  have i0 : interp_i 0 99 0 2 = 0 := by decide
  have i1 : interp_i 0 99 1 2 = 49 := by decide
  have i2 : interp_i 0 99 2 2 = 99 := by decide
  have hloc : barLocations [1/2, 19/20] 100 200 =
      [(0, 49, [0, 100, 100, 100, 200]), (49, 99, [0, 10, 20, 60, 200])] := by
    simp only [barLocations, List.enum, List.enumFrom, List.map, List.length]
    norm_num
    rw [i0, i1, i2, l1, l2]
    simp
  refine ⟨hloc, ?_⟩
  rw [hloc]
  decide

/-- C3: the five-point y-ladder is chosen by exactly three cases on the level
(with the threshold comparisons of the source), and at level exactly 0.7 the
second branch is taken with yp equal to the 0.7 threshold line. -/
theorem yLadder_cases (hgt : Nat) (level : ℚ) :
    (level < 7/10 →
      yLadder 0 ((hgt : Int) - 1) level =
        [0, ratTrunc (interp_f (hgt : Int) 0 level),
          ratTrunc (interp_f (hgt : Int) 0 level),
          ratTrunc (interp_f (hgt : Int) 0 level), (hgt : Int)])
  ∧ (7/10 ≤ level → level < 9/10 →
      yLadder 0 ((hgt : Int) - 1) level =
        [0, ratTrunc (interp_f (hgt : Int) 0 level),
          ratTrunc (interp_f (hgt : Int) 0 level),
          ratTrunc (interp_f (hgt : Int) 0 (7/10)), (hgt : Int)])
  ∧ (9/10 ≤ level →
      yLadder 0 ((hgt : Int) - 1) level =
        [0, ratTrunc (interp_f (hgt : Int) 0 level),
          ratTrunc (interp_f (hgt : Int) 0 (9/10)),
          ratTrunc (interp_f (hgt : Int) 0 (7/10)), (hgt : Int)])
  ∧ (level = 7/10 →
      ratTrunc (interp_f (hgt : Int) 0 level) = ratTrunc (interp_f (hgt : Int) 0 (7/10))) := by
  have hb : ((hgt : Int) - 1) + 1 = (hgt : Int) := by ring
  unfold yLadder
  rw [hb]
  refine ⟨fun h1 => ?_, fun h1 h2 => ?_, fun h1 => ?_, fun h1 => ?_⟩
  · rw [if_pos h1]
  · rw [if_neg (by linarith), if_pos h2]
  · rw [if_neg (by linarith), if_neg (by linarith)]
  · rw [h1]

/-- C3 witness: the ladder cases evaluated at height 200; the first case at
level 0.5 and the boundary case at level 0.7 (where the ladder takes the
second branch with a zero-height med band). -/
theorem yLadder_cases_witness :
    ((1 : ℚ)/2 < 7/10 ∧
      yLadder 0 ((200 : Nat) - 1 : Int) (1/2) =
        [0, ratTrunc (interp_f ((200 : Nat) : Int) 0 (1/2)),
          ratTrunc (interp_f ((200 : Nat) : Int) 0 (1/2)),
          ratTrunc (interp_f ((200 : Nat) : Int) 0 (1/2)), ((200 : Nat) : Int)])
    ∧ yLadder 0 199 (7/10) = [0, 60, 60, 60, 200] :=
  ⟨⟨by norm_num, by simpa using (yLadder_cases 200 (1/2)).1 (by norm_num)⟩,
    by norm_num [yLadder, interp_f, ratTrunc]⟩

/-- C8: calling take_and_reset twice in a row with no intervening update
returns, the second time, the all-zero vector of the channel count length. -/
theorem takeAndReset_twice (st : List ℚ) :
    (takeAndReset ((takeAndReset st).2)).1 = List.replicate st.length 0 := by
  simp only [takeAndReset]
  rw [List.eq_replicate_iff]
  constructor
  · simp
  · intro b hb
    simp at hb
    exact hb.2

/-! Helper lemmas about the level aggregator. -/

theorem getD_replicate_self {α : Type} (n i : Nat) (d : α) :
    (List.replicate n d).getD i d = d := by
  induction n generalizing i with
  | zero => cases i <;> rfl
  | succ m ih =>
    cases i with
    | zero => rfl
    | succ k => exact ih k

theorem levelUpdate_length (st : List ℚ) (i : Nat) (p : ℚ) :
    (levelUpdate st i p).length = st.length := by
  simp [levelUpdate]

theorem applyUpdates_cons (u : Nat × ℚ) (us : List (Nat × ℚ)) (st : List ℚ) :
    applyUpdates (u :: us) st = applyUpdates us (levelUpdate st u.1 u.2) := rfl

theorem applyUpdates_length (us : List (Nat × ℚ)) (st : List ℚ) :
    (applyUpdates us st).length = st.length := by
  induction us generalizing st with
  | nil => rfl
  | cons u us ih => rw [applyUpdates_cons, ih, levelUpdate_length]

theorem levelUpdate_getD_same (st : List ℚ) (i : Nat) (p : ℚ)
    (h : i < st.length) :
    (levelUpdate st i p).getD i 0 = max (st.getD i 0) p :=
  getD_set_same st i _ 0 h

theorem levelUpdate_getD_other (st : List ℚ) (i : Nat) (p : ℚ) (j : Nat)
    (h : j ≠ i) : (levelUpdate st i p).getD j 0 = st.getD j 0 :=
  getD_set_other st _ 0 (fun hij => h hij.symm)

theorem levelUpdate_getD_le (st : List ℚ) (i : Nat) (p : ℚ) (j : Nat) :
    st.getD j 0 ≤ (levelUpdate st i p).getD j 0 := by
  by_cases hij : j = i
  · subst hij
    by_cases hl : j < st.length
    · rw [levelUpdate_getD_same st j p hl]
      exact le_max_left _ _
    · have hlen : st.length ≤ j := le_of_not_lt hl
      rw [getD_of_length_le st j 0 hlen,
        getD_of_length_le _ j 0 (by rw [levelUpdate_length]; exact hlen)]
  · rw [levelUpdate_getD_other st i p j hij]

theorem applyUpdates_getD_le (us : List (Nat × ℚ)) (st : List ℚ) (j : Nat) :
    st.getD j 0 ≤ (applyUpdates us st).getD j 0 := by
  induction us generalizing st with
  | nil => exact le_refl _
  | cons u us ih =>
    rw [applyUpdates_cons]
    exact le_trans (levelUpdate_getD_le st u.1 u.2 j) (ih _)

theorem chPeaks_cons (u : Nat × ℚ) (us : List (Nat × ℚ)) (i : Nat) :
    chPeaks (u :: us) i =
      if u.1 = i then u.2 :: chPeaks us i else chPeaks us i := by
  simp only [chPeaks, List.filterMap_cons]
  split <;> simp_all

theorem chPeaks_nonneg (us : List (Nat × ℚ)) (i : Nat)
    (hpos : ∀ u ∈ us, 0 ≤ u.2) : ∀ p ∈ chPeaks us i, 0 ≤ p := by
  intro p hp
  rcases List.mem_filterMap.1 hp with ⟨u, hu, hpu⟩
  by_cases hui : u.1 = i
  · rw [if_pos hui] at hpu
    cases hpu
    exact hpos u hu
  · rw [if_neg hui] at hpu
    cases hpu

theorem applyUpdates_getD (us : List (Nat × ℚ)) (st : List ℚ) (i : Nat)
    (h : i < st.length) :
    (applyUpdates us st).getD i 0 = (chPeaks us i).foldl max (st.getD i 0) := by
  induction us generalizing st with
  | nil => rfl
  | cons u us ih =>
    rw [applyUpdates_cons, chPeaks_cons]
    by_cases hu : u.1 = i
    · rw [if_pos hu, List.foldl_cons,
        ih _ (by rw [levelUpdate_length]; exact h)]
      subst hu
      rw [levelUpdate_getD_same st u.1 u.2 h]
    · rw [if_neg hu, ih _ (by rw [levelUpdate_length]; exact h),
        levelUpdate_getD_other st u.1 u.2 i (fun hiu => hu hiu.symm)]

theorem foldl_max_bounds (l : List ℚ) :
    ∀ a : ℚ, (∀ p ∈ l, p ≤ l.foldl max a) ∧ a ≤ l.foldl max a ∧
      (l.foldl max a ∈ l ∨ l.foldl max a = a) := by
  induction l with
  | nil => exact fun a => ⟨by simp, le_refl _, Or.inr rfl⟩
  | cons x xs ih =>
    intro a
    have h := ih (max a x)
    rw [List.foldl_cons]
    refine ⟨?_, ?_, ?_⟩
    · intro p hp
      rcases List.mem_cons.1 hp with rfl | hp
      · exact le_trans (le_max_right a p) h.2.1
      · exact h.1 p hp
    · exact le_trans (le_max_left a x) h.2.1
    · rcases h.2.2 with hm | hm
      · exact Or.inl (List.mem_cons_of_mem _ hm)
      · rcases max_choice a x with hc | hc
        · exact Or.inr (hm.trans hc)
        · exact Or.inl (by rw [hm, hc]; exact List.mem_cons_self x xs)

/-- C2: an update for channel i with block peak p sets entry i to the maximum
of the stored level and p, changes no other entry, and any further sequence
of updates leaves every stored level monotonically non-decreasing. -/
theorem levelUpdate_spec (st : List ℚ) (i : Nat) (p : ℚ) (hi : i < st.length) :
    (levelUpdate st i p).getD i 0 = max (st.getD i 0) p
  ∧ (∀ j, j ≠ i → (levelUpdate st i p).getD j 0 = st.getD j 0)
  ∧ (∀ us j, st.getD j 0 ≤ (applyUpdates us st).getD j 0) :=
  ⟨levelUpdate_getD_same st i p hi,
    fun j hj => levelUpdate_getD_other st i p j hj,
    fun us j => applyUpdates_getD_le us st j⟩

/-- C2 witness: the update semantics evaluated on the two-channel state
[0.5, 0.25] with an update of channel 0 by peak 0.75. -/
theorem levelUpdate_spec_witness :
    (0 : Nat) < ([1/2, 1/4] : List ℚ).length ∧
    ((levelUpdate [1/2, 1/4] 0 (3/4)).getD 0 0
        = max (([1/2, 1/4] : List ℚ).getD 0 0) (3/4)
      ∧ (∀ j, j ≠ 0 →
          (levelUpdate [1/2, 1/4] 0 (3/4)).getD j 0
            = ([1/2, 1/4] : List ℚ).getD j 0)
      ∧ (∀ us j, ([1/2, 1/4] : List ℚ).getD j 0
          ≤ (applyUpdates us [1/2, 1/4]).getD j 0)) :=
  ⟨by norm_num, levelUpdate_spec [1/2, 1/4] 0 (3/4) (by norm_num)⟩

/-- C1: starting from the zeroed state left by the previous take_and_reset,
after any sequence of update calls, take_and_reset returns per channel the
maximum of the peaks reported for that channel in the interval (0 when none
was reported), and leaves the internal vector all zeros of the same length;
hence every reported peak is reflected exactly in the snapshot of its own
interval and in no later one. -/
theorem takeAndReset_spec (n : Nat) (us : List (Nat × ℚ))
    (hpos : ∀ u ∈ us, 0 ≤ u.2) :
    (∀ i, i < n →
      (∀ p ∈ chPeaks us i,
        p ≤ (takeAndReset (applyUpdates us (List.replicate n 0))).1.getD i 0)
      ∧ ((takeAndReset (applyUpdates us (List.replicate n 0))).1.getD i 0
            ∈ chPeaks us i
        ∨ (chPeaks us i = []
          ∧ (takeAndReset (applyUpdates us (List.replicate n 0))).1.getD i 0 = 0)))
  ∧ (takeAndReset (applyUpdates us (List.replicate n 0))).2 = List.replicate n 0 := by
  have hrep : ∀ i : Nat, (List.replicate n (0:ℚ)).getD i 0 = 0 :=
    fun i => getD_replicate_self n i 0
  constructor
  · intro i hi
    have hfst : (takeAndReset (applyUpdates us (List.replicate n 0))).1
        = applyUpdates us (List.replicate n 0) := rfl
    have hgd : (applyUpdates us (List.replicate n 0)).getD i 0
        = (chPeaks us i).foldl max 0 := by
      rw [applyUpdates_getD us _ i (by simpa using hi), hrep i]
    have hmax := foldl_max_bounds (chPeaks us i) 0
    rw [hfst, hgd]
    refine ⟨hmax.1, ?_⟩
    rcases hmax.2.2 with hm | hm
    · exact Or.inl hm
    · cases hc : chPeaks us i with
      | nil => exact Or.inr ⟨rfl, by rw [hc] at hm; exact hm⟩
      | cons q t =>
        refine Or.inl ?_
        have hq : q ∈ chPeaks us i := by rw [hc]; exact List.mem_cons_self q t
        have h0q : 0 ≤ q := chPeaks_nonneg us i hpos q hq
        have hq0 : q ≤ (chPeaks us i).foldl max 0 := hmax.1 q hq
        rw [hm] at hq0
        rw [hc] at hm
        rw [hm]
        have hq' : q = 0 := le_antisymm hq0 h0q
        rw [← hq']
        exact List.mem_cons_self q t
  · show (applyUpdates us (List.replicate n 0)).map (fun _ => 0)
      = List.replicate n 0
    rw [List.eq_replicate_iff]
    refine ⟨by simp [applyUpdates_length], ?_⟩
    intro b hb
    simp at hb
    exact hb.2

/-- C1 witness: two channels, peaks 0.5 then 0.25 on channel 0 and 0.95 on
channel 1; the snapshot is the per-channel maximum and the residual state is
all zeros. -/
theorem takeAndReset_spec_witness :
    (∀ u ∈ ([(0, 1/2), (1, 19/20), (0, 1/4)] : List (Nat × ℚ)), 0 ≤ u.2) ∧
    ((∀ i, i < 2 →
      (∀ p ∈ chPeaks [(0, 1/2), (1, 19/20), (0, 1/4)] i,
        p ≤ (takeAndReset (applyUpdates [(0, 1/2), (1, 19/20), (0, 1/4)]
          (List.replicate 2 0))).1.getD i 0)
      ∧ ((takeAndReset (applyUpdates [(0, 1/2), (1, 19/20), (0, 1/4)]
            (List.replicate 2 0))).1.getD i 0
          ∈ chPeaks [(0, 1/2), (1, 19/20), (0, 1/4)] i
        ∨ (chPeaks [(0, 1/2), (1, 19/20), (0, 1/4)] i = []
          ∧ (takeAndReset (applyUpdates [(0, 1/2), (1, 19/20), (0, 1/4)]
              (List.replicate 2 0))).1.getD i 0 = 0)))
    ∧ (takeAndReset (applyUpdates [(0, 1/2), (1, 19/20), (0, 1/4)]
        (List.replicate 2 0))).2 = List.replicate 2 0) :=
  ⟨by intro u hu; fin_cases hu <;> norm_num,
    takeAndReset_spec 2 [(0, 1/2), (1, 19/20), (0, 1/4)]
      (by intro u hu; fin_cases hu <;> norm_num)⟩

/-! Helper lemmas for the x-slot geometry. -/

theorem interp_i_zero_left (w n i : Nat) (hw : 1 ≤ w) :
    interp_i 0 ((w : Int) - 1) i n = (((w - 1) * i / n : Nat) : Int) := by
  unfold interp_i
  rw [zero_mul, zero_add]
  have h1 : ((w : Int) - 1) = ((w - 1 : Nat) : Int) := by omega
  rw [h1, ← Int.ofNat_mul, ← Int.ofNat_tdiv]

theorem exists_slot (f : Nat → Int) :
    ∀ n : Nat, 1 ≤ n → ∀ x : Int, f 0 ≤ x → x ≤ f n →
      ∃ i, i < n ∧ f i ≤ x ∧ x ≤ f (i + 1) := by
  intro n
  induction n with
  | zero => exact fun h => absurd h (by omega)
  | succ m ih =>
    intro _ x h0 h1
    by_cases hm : 1 ≤ m
    · by_cases hx : x ≤ f m
      · obtain ⟨i, hi, hfi, hfi1⟩ := ih hm x h0 hx
        exact ⟨i, by omega, hfi, hfi1⟩
      · exact ⟨m, by omega, le_of_lt (lt_of_not_ge hx), h1⟩
    · have hm0 : m = 0 := by omega
      subst hm0
      exact ⟨0, by omega, h0, h1⟩

/-- C4: for 1 ≤ n ≤ w, the per-channel x-slot boundaries
interp_i(0, w-1, i, n) are monotone in the channel index, start at 0, end at
w-1, the closed slots together cover exactly the pixel range [0, w-1] with no
gaps, and the slot interiors are pairwise disjoint (adjacent slots meet only
in the shared boundary pixel). -/
theorem xSlots_spec (w n : Nat) (hn : 1 ≤ n) (hnw : n ≤ w) :
    (∀ i j : Nat, i ≤ j →
      interp_i 0 ((w : Int) - 1) i n ≤ interp_i 0 ((w : Int) - 1) j n)
  ∧ interp_i 0 ((w : Int) - 1) 0 n = 0
  ∧ interp_i 0 ((w : Int) - 1) n n = (w : Int) - 1
  ∧ (∀ x : Int, (0 ≤ x ∧ x ≤ (w : Int) - 1) ↔
      ∃ i, i < n ∧ interp_i 0 ((w : Int) - 1) i n ≤ x
        ∧ x ≤ interp_i 0 ((w : Int) - 1) (i + 1) n)
  ∧ (∀ i j : Nat, ∀ x : Int, i < j → j < n →
      interp_i 0 ((w : Int) - 1) i n < x → x < interp_i 0 ((w : Int) - 1) (i + 1) n →
      ¬(interp_i 0 ((w : Int) - 1) j n < x
        ∧ x < interp_i 0 ((w : Int) - 1) (j + 1) n)) := by
  have hw : 1 ≤ w := le_trans hn hnw
  have he : ∀ i : Nat, interp_i 0 ((w : Int) - 1) i n = (((w - 1) * i / n : Nat) : Int) :=
    fun i => interp_i_zero_left w n i hw
  have hmono : ∀ i j : Nat, i ≤ j →
      interp_i 0 ((w : Int) - 1) i n ≤ interp_i 0 ((w : Int) - 1) j n := by
    intro i j hij
    rw [he i, he j]
    exact_mod_cast Nat.div_le_div_right (Nat.mul_le_mul_left _ hij)
  have hfirst : interp_i 0 ((w : Int) - 1) 0 n = 0 := by
    rw [he 0]
    simp
  have hlast : interp_i 0 ((w : Int) - 1) n n = (w : Int) - 1 := by
    rw [he n, Nat.mul_div_cancel _ (by omega : 0 < n)]
    omega
  refine ⟨hmono, hfirst, hlast, ?_, ?_⟩
  · intro x
    constructor
    · intro hx
      refine exists_slot (fun i => interp_i 0 ((w : Int) - 1) i n) n hn x ?_ ?_
      · show interp_i 0 ((w : Int) - 1) 0 n ≤ x
        rw [hfirst]
        exact hx.1
      · show x ≤ interp_i 0 ((w : Int) - 1) n n
        rw [hlast]
        exact hx.2
    · rintro ⟨i, hi, h1, h2⟩
      constructor
      · refine le_trans ?_ h1
        rw [he i]
        exact Int.ofNat_nonneg _
      · have hstep := hmono (i + 1) n hi
        rw [hlast] at hstep
        exact le_trans h2 hstep
  · rintro i j x hij hj h1 h2 ⟨h3, h4⟩
    have hle : interp_i 0 ((w : Int) - 1) (i + 1) n ≤ interp_i 0 ((w : Int) - 1) j n :=
      hmono (i + 1) j hij
    omega

/-- C4 witness: the slot boundary properties instantiated at a 100 pixel wide
window with 2 channels. -/
theorem xSlots_spec_witness :
    (∀ i j : Nat, i ≤ j →
      interp_i 0 ((100 : Int) - 1) i 2 ≤ interp_i 0 ((100 : Int) - 1) j 2)
  ∧ interp_i 0 ((100 : Int) - 1) 0 2 = 0
  ∧ interp_i 0 ((100 : Int) - 1) 2 2 = (100 : Int) - 1
  ∧ (∀ x : Int, (0 ≤ x ∧ x ≤ (100 : Int) - 1) ↔
      ∃ i, i < 2 ∧ interp_i 0 ((100 : Int) - 1) i 2 ≤ x
        ∧ x ≤ interp_i 0 ((100 : Int) - 1) (i + 1) 2)
  ∧ (∀ i j : Nat, ∀ x : Int, i < j → j < 2 →
      interp_i 0 ((100 : Int) - 1) i 2 < x → x < interp_i 0 ((100 : Int) - 1) (i + 1) 2 →
      ¬(interp_i 0 ((100 : Int) - 1) j 2 < x
        ∧ x < interp_i 0 ((100 : Int) - 1) (j + 1) 2)) := by
  have h := xSlots_spec 100 2 (by norm_num) (by norm_num)
  simpa using h

/-- C9: the per-frame draw calls are grouped by band in the fixed order
background, high, med, low (the emitted band sequence is a subsequence of
that order, a band being omitted exactly when it has no rectangle); each
emitted batch is the band rectangle list over the channels in left-to-right
order (band extraction distributes over list concatenation, preserving
channel order); and a ladder pair of zero or negative height yields no
rectangle. -/
theorem frameDrawCalls_spec (locs : List (Int × Int × List Int)) :
    ((frameDrawCalls locs).map Prod.fst).Sublist
      [Band.bg, Band.high, Band.med, Band.low]
  ∧ (∀ p ∈ frameDrawCalls locs,
      p.2 = bandRects locs (bandIdx p.1) ∧ p.2 ≠ [])
  ∧ (∀ (k : Nat) (l1 l2 : List (Int × Int × List Int)),
      bandRects (l1 ++ l2) k = bandRects l1 k ++ bandRects l2 k)
  ∧ (∀ x0 x1 y0 y1 : Int, y1 ≤ y0 → rect x0 x1 y0 (y1 - 1) = none) := by
  refine ⟨?_, ?_, ?_, ?_⟩
  · exact (List.filter_sublist _).map Prod.fst
  · intro p hp
    simp only [frameDrawCalls, List.mem_filter] at hp
    obtain ⟨hmem, hne⟩ := hp
    have hne2 : p.2 ≠ [] := by
      intro hcontra
      rw [hcontra] at hne
      simp at hne
    simp only [List.mem_cons, List.not_mem_nil, or_false] at hmem
    rcases hmem with rfl | rfl | rfl | rfl <;> exact ⟨rfl, hne2⟩
  · intro k l1 l2
    simp [bandRects, List.filterMap_append]
  · intro x0 x1 y0 y1 hy
    rw [rect, if_neg]
    rintro ⟨_, h2⟩
    omega

/-! Helper lemmas for the process callback. -/

theorem maxByAbs_go_val (ys : List Sample) :
    ∀ a : ℚ, (∀ y ∈ ys, ∃ q : ℚ, y = Sample.val q) →
      ∃ r : ℚ, maxByAbs.go (Sample.val a) ys = some (Sample.val r) := by
  induction ys with
  | nil => exact fun a _ => ⟨a, rfl⟩
  | cons y ys ih =>
    intro a hy
    obtain ⟨q, rfl⟩ := hy y (List.mem_cons_self y ys)
    have hys : ∀ z ∈ ys, ∃ qz : ℚ, z = Sample.val qz :=
      fun z hz => hy z (List.mem_cons_of_mem _ hz)
    cases hc : compare a q with
    | lt =>
      have hstep : maxByAbs.go (Sample.val a) (Sample.val q :: ys)
          = maxByAbs.go (Sample.val q) ys := by
        simp [maxByAbs.go, pcmp, hc]
      rw [hstep]
      exact ih q hys
    | eq =>
      have hstep : maxByAbs.go (Sample.val a) (Sample.val q :: ys)
          = maxByAbs.go (Sample.val q) ys := by
        simp [maxByAbs.go, pcmp, hc]
      rw [hstep]
      exact ih q hys
    | gt =>
      have hstep : maxByAbs.go (Sample.val a) (Sample.val q :: ys)
          = maxByAbs.go (Sample.val a) ys := by
        simp [maxByAbs.go, pcmp, hc]
      rw [hstep]
      exact ih a hys

theorem maxByAbs_val (b : List Sample) (hne : b ≠ []) (hnan : Sample.nan ∉ b) :
    ∃ q : ℚ, maxByAbs b = some (Sample.val q) := by
  cases b with
  | nil => exact absurd rfl hne
  | cons x xs =>
    obtain ⟨qx, rfl⟩ : ∃ q : ℚ, x = Sample.val q := by
      cases x with
      | nan => exact absurd (List.mem_cons_self _ _) hnan
      | val q => exact ⟨q, rfl⟩
    have hstart : maxByAbs (Sample.val qx :: xs)
        = maxByAbs.go (Sample.val |qx|) (xs.map sAbs) := rfl
    rw [hstart]
    refine maxByAbs_go_val (xs.map sAbs) |qx| ?_
    intro z hz
    rcases List.mem_map.1 hz with ⟨y, hy, rfl⟩
    cases y with
    | nan => exact absurd (List.mem_cons_of_mem _ hy) hnan
    | val qy => exact ⟨|qy|, rfl⟩

theorem processChans_some (blocks : List (List Sample)) :
    ∀ (i : Nat) (st : List ℚ),
      (∀ b ∈ blocks, b ≠ [] ∧ Sample.nan ∉ b) →
      i + blocks.length ≤ st.length →
      ∃ v, processChans i blocks st = some v := by
  induction blocks with
  | nil => exact fun i st _ _ => ⟨st, rfl⟩
  | cons b bs ih =>
    intro i st hb hlen
    have hi : i < st.length := by
      simp only [List.length_cons] at hlen
      omega
    obtain ⟨q, hq⟩ := maxByAbs_val b (hb b (List.mem_cons_self b bs)).1
      (hb b (List.mem_cons_self b bs)).2
    have hget : st[i]? = some st[i] := List.getElem?_eq_getElem hi
    have hstep : processChans i (b :: bs) st
        = processChans (i + 1) bs (st.set i (fmax st[i] (Sample.val q))) := by
      rw [processChans, hget, hq]
    rw [hstep]
    refine ih (i + 1) _ (fun b2 hb2 => hb b2 (List.mem_cons_of_mem _ hb2)) ?_
    simp only [List.length_set, List.length_cons] at hlen ⊢
    omega

/-- C10: when the process callback runs with the vu vector matching the port
count (as established at construction), every block nonempty and free of NaN,
the peak reduction and the level update complete without reaching either
unwrap failure and the callback returns Control::Continue.  (Lock poisoning
is outside the sequential model: the embedding models the unpoisoned case the
claim preconditions require.) -/
theorem process_spec (blocks : List (List Sample)) (st : List ℚ)
    (hlen : blocks.length = st.length)
    (hblocks : ∀ b ∈ blocks, b ≠ [] ∧ Sample.nan ∉ b) :
    ∃ v, process blocks st = some (v, Control.Continue) := by
  obtain ⟨v, hv⟩ := processChans_some blocks 0 st hblocks (by omega)
  refine ⟨v, ?_⟩
  rw [process, hv]
  rfl

/-- C10 witness: two channels with one-sample blocks 0.5 and -0.75 complete
and return Continue. -/
theorem process_spec_witness :
    ([[Sample.val (1/2)], [Sample.val (-3/4)]] : List (List Sample)).length
        = ([0, 0] : List ℚ).length
    ∧ (∀ b ∈ ([[Sample.val (1/2)], [Sample.val (-3/4)]] : List (List Sample)),
        b ≠ [] ∧ Sample.nan ∉ b)
    ∧ ∃ v, process [[Sample.val (1/2)], [Sample.val (-3/4)]] [0, 0]
        = some (v, Control.Continue) :=
  ⟨rfl, by intro b hb; fin_cases hb <;> simp,
    process_spec [[Sample.val (1/2)], [Sample.val (-3/4)]] [0, 0] rfl
      (by intro b hb; fin_cases hb <;> simp)⟩

/-! FrameDiffCache behaviour (modelled from the spec). -/

theorem diffStep_cache (c : FrameDiffCache) (lv : List ℚ) (w h : Nat) :
    (diffStep c lv w h true).2.cachedLevels = lv
    ∧ (diffStep c lv w h true).2.cachedCalls
        = frameDrawCalls (barLocations lv w h) := by
  simp only [diffStep]
  by_cases hd : shouldDraw c lv (frameDrawCalls (barLocations lv w h)) true = true
  · simp [if_pos hd]
  · simp only [if_neg hd]
    simp [shouldDraw] at hd
    exact ⟨hd.1.symm, hd.2.symm⟩

/-- C7: after any synthetic redraw trigger, a second synthetic trigger with
the identical level vector (and unchanged window) reports skip; a
non-synthetic trigger always reports draw, identical levels or not. -/
theorem diffStep_spec (c : FrameDiffCache) (lv : List ℚ) (w h : Nat) :
    (diffStep (diffStep c lv w h true).2 lv w h true).1 = false
  ∧ (∀ (c2 : FrameDiffCache) (lv2 : List ℚ) (w2 h2 : Nat),
      (diffStep c2 lv2 w2 h2 false).1 = true) := by
  constructor
  · have hc := diffStep_cache c lv w h
    set c1 := (diffStep c lv w h true).2 with hc1
    have hs : shouldDraw c1 lv (frameDrawCalls (barLocations lv w h)) true = false := by
      simp [shouldDraw, hc.1, hc.2]
    simp [diffStep, hs]
  · intro c2 lv2 w2 h2
    simp [diffStep, shouldDraw]

end VuMeter
